import Mathlib

/-!
Verification of the TensorOpt graph segmenter (`tensorflow/contrib/tensoropt/segment`)
and the XLA domain-metadata reachability structure
(`tensorflow/compiler/xla/service/hlo_domain_metadata.h`).

Nodes are dense natural-number ids (the stable node enumeration of the graph);
a graph is its node count together with the ordered list of directed edges
(producer, consumer).  The segmentation algorithm itself is declared in
`segment.h` but its definition is not part of the sources at hand, so it is
modelled from the specification, faithful to the specification's words.
-/

namespace Segment

/-- A directed multigraph over dense node ids `0 .. numNodes-1`, the read-only
graph view consumed by the segmenter (an abstraction of `tensorflow::Graph`):
a stable node enumeration plus the ordered list of (producer, consumer) edges. -/
structure Graph where
  numNodes : Nat
  edges : List (Nat × Nat)
  deriving Repr, DecidableEq

/-- Well-formedness: every edge endpoint is a valid node id. -/
def Graph.wf (g : Graph) : Prop := ∀ e ∈ g.edges, e.1 < g.numNodes ∧ e.2 < g.numNodes

/-- Edge test. -/
def isEdge (g : Graph) (u v : Nat) : Bool := g.edges.contains (u, v)

/-- Successors of a node, in edge-list order. -/
def succs (g : Graph) (u : Nat) : List Nat :=
  (g.edges.filter (fun e => e.1 == u)).map (fun e => e.2)

/-- `walkOk g u l v` holds when `u :: l` is a directed walk from `u` ending at `v`:
each consecutive pair is an edge of `g` and the final element is `v`
(`l = []` means the trivial walk, `u = v`). -/
def walkOk (g : Graph) : Nat → List Nat → Nat → Bool
  | u, [], v => u == v
  | u, w :: ws, v => isEdge g u w && walkOk g w ws v

/-- Fuel-bounded reachability: is there a walk from `u` to `v` of length at most `f`? -/
def reachBnd (g : Graph) : Nat → Nat → Nat → Bool
  | 0, u, v => u == v
  | f+1, u, v => u == v || (succs g u).any (fun w => reachBnd g f w v)

/-- Executable cycle test: some node lies on a directed cycle. -/
def hasCycleB (g : Graph) : Bool :=
  (List.range g.numNodes).any (fun v => (succs g v).any (fun w => reachBnd g g.numNodes w v))

/-- Propositional acyclicity: no nonempty closed walk. -/
def CycleFree (g : Graph) : Prop := ∀ v l, l ≠ [] → walkOk g v l v = false

theorem isEdge_iff {g : Graph} {u v : Nat} : isEdge g u v = true ↔ (u, v) ∈ g.edges := by
  simp [isEdge, List.contains_iff_exists_mem_beq]

theorem mem_succs {g : Graph} {u w : Nat} : w ∈ succs g u ↔ (u, w) ∈ g.edges := by
  constructor
  · intro h
    simp only [succs, List.mem_map, List.mem_filter] at h
    obtain ⟨e, ⟨he, hfst⟩, hsnd⟩ := h
    have : e.1 = u := by simpa using hfst
    cases e
    simp_all
  · intro h
    simp only [succs, List.mem_map, List.mem_filter]
    exact ⟨(u, w), ⟨h, by simp⟩, rfl⟩

theorem walk_elems_lt {g : Graph} (hwf : g.wf) :
    ∀ {l : List Nat} {u v : Nat}, walkOk g u l v = true → ∀ x ∈ l, x < g.numNodes := by
  intro l
  induction l with
  | nil => intro u v _ x hx; cases hx
  | cons w ws ih =>
    intro u v h x hx
    simp only [walkOk, Bool.and_eq_true] at h
    rcases List.mem_cons.mp hx with hx | hx
    · subst hx
      exact (hwf _ (isEdge_iff.mp h.1)).2
    · exact ih h.2 x hx

theorem walk_first_lt {g : Graph} (hwf : g.wf) {u v w : Nat} {ws : List Nat}
    (h : walkOk g u (w :: ws) v = true) : u < g.numNodes := by
  simp only [walkOk, Bool.and_eq_true] at h
  exact (hwf _ (isEdge_iff.mp h.1)).1

theorem walk_concat {g : Graph} :
    ∀ {l1 : List Nat} {l2 : List Nat} {u m v : Nat},
      walkOk g u l1 m = true → walkOk g m l2 v = true → walkOk g u (l1 ++ l2) v = true := by
  intro l1
  induction l1 with
  | nil =>
    intro l2 u m v h1 h2
    simp only [walkOk] at h1
    have : u = m := by simpa using h1
    subst this
    simpa using h2
  | cons w ws ih =>
    intro l2 u m v h1 h2
    simp only [walkOk, Bool.and_eq_true] at h1 ⊢
    exact ⟨h1.1, ih h1.2 h2⟩

theorem walk_split {g : Graph} :
    ∀ (l1 : List Nat) (x : Nat) (l2 : List Nat) {u v : Nat},
      walkOk g u (l1 ++ x :: l2) v = true →
      walkOk g u (l1 ++ [x]) x = true ∧ walkOk g x l2 v = true := by
  intro l1
  induction l1 with
  | nil =>
    intro x l2 u v h
    simp only [List.nil_append, walkOk, Bool.and_eq_true] at h ⊢
    exact ⟨⟨h.1, by simp⟩, h.2⟩
  | cons w ws ih =>
    intro x l2 u v h
    simp only [List.cons_append, walkOk, Bool.and_eq_true] at h ⊢
    exact ⟨⟨h.1, (ih _ _ h.2).1⟩, (ih _ _ h.2).2⟩

theorem split_of_not_nodup :
    ∀ (l : List Nat), ¬ l.Nodup → ∃ x l1 l2 l3, l = l1 ++ x :: l2 ++ x :: l3 := by
  intro l
  induction l with
  | nil => intro h; exact absurd List.nodup_nil h
  | cons a t ih =>
    intro h
    rw [List.nodup_cons] at h
    push_neg at h
    by_cases ha : a ∈ t
    · obtain ⟨s, r, hsr⟩ := List.append_of_mem ha
      exact ⟨a, [], s, r, by simp [hsr]⟩
    · obtain ⟨x, l1, l2, l3, hl⟩ := ih (h ha)
      exact ⟨x, a :: l1, l2, l3, by simp [hl]⟩

theorem not_nodup_of_long {l : List Nat} {n : Nat}
    (hlt : ∀ x ∈ l, x < n) (hlen : n < l.length) : ¬ l.Nodup := by
  intro hn
  have hsub : l.toFinset ⊆ Finset.range n := by
    intro x hx
    rw [List.mem_toFinset] at hx
    exact Finset.mem_range.mpr (hlt x hx)
  have hcard : l.toFinset.card ≤ n := by
    simpa using Finset.card_le_card hsub
  rw [List.toFinset_card_of_nodup hn] at hcard
  omega

theorem walk_shorten {g : Graph} :
    ∀ (N : Nat) (l : List Nat) (u v : Nat), l.length ≤ N →
      walkOk g u l v = true → (∀ x ∈ l, x < g.numNodes) →
      ∃ l', l'.length ≤ g.numNodes ∧ walkOk g u l' v = true ∧
        ∀ x ∈ l', x < g.numNodes := by
  intro N
  induction N with
  | zero =>
    intro l u v hlen hw hlt
    exact ⟨l, by omega, hw, hlt⟩
  | succ N ih =>
    intro l u v hlen hw hlt
    by_cases hle : l.length ≤ g.numNodes
    · exact ⟨l, hle, hw, hlt⟩
    · push_neg at hle
      have hnd : ¬ l.Nodup := not_nodup_of_long hlt hle
      obtain ⟨x, l1, l2, l3, hl⟩ := split_of_not_nodup l hnd
      subst hl
      have hw2 : walkOk g u (l1 ++ (x :: (l2 ++ (x :: l3)))) v = true := by
        simpa [List.append_assoc] using hw
      obtain ⟨h1, h23⟩ := walk_split l1 x (l2 ++ x :: l3) hw2
      obtain ⟨_, h3⟩ := walk_split l2 x l3 h23
      have hw' : walkOk g u ((l1 ++ [x]) ++ l3) v = true := walk_concat h1 h3
      have hlt' : ∀ y ∈ (l1 ++ [x]) ++ l3, y < g.numNodes := by
        intro y hy
        apply hlt
        simp only [List.mem_append, List.mem_cons, List.mem_singleton] at hy ⊢
        tauto
      have hlen' : ((l1 ++ [x]) ++ l3).length ≤ N := by
        simp only [List.length_append, List.length_cons, List.length_nil] at hlen ⊢
        omega
      exact ih _ u v hlen' hw' hlt'

theorem reachBnd_of_walk {g : Graph} :
    ∀ {l : List Nat} {u v : Nat}, walkOk g u l v = true → reachBnd g l.length u v = true := by
  intro l
  induction l with
  | nil =>
    intro u v h
    simpa [walkOk, reachBnd] using h
  | cons w ws ih =>
    intro u v h
    simp only [walkOk, Bool.and_eq_true] at h
    simp only [List.length_cons, reachBnd, Bool.or_eq_true, List.any_eq_true]
    exact Or.inr ⟨w, mem_succs.mpr (isEdge_iff.mp h.1), ih h.2⟩

theorem reachBnd_mono {g : Graph} :
    ∀ {f f' u v : Nat}, f ≤ f' → reachBnd g f u v = true → reachBnd g f' u v = true := by
  intro f
  induction f with
  | zero =>
    intro f' u v _ h
    simp only [reachBnd] at h
    cases f' with
    | zero => exact h
    | succ f' => simp only [reachBnd, Bool.or_eq_true]; exact Or.inl h
  | succ f ih =>
    intro f' u v hle h
    cases f' with
    | zero => omega
    | succ f' =>
      simp only [reachBnd, Bool.or_eq_true, List.any_eq_true] at h ⊢
      rcases h with h | ⟨w, hw, hr⟩
      · exact Or.inl h
      · exact Or.inr ⟨w, hw, ih (by omega) hr⟩

theorem walk_of_reachBnd {g : Graph} :
    ∀ {f u v : Nat}, reachBnd g f u v = true → ∃ l, walkOk g u l v = true := by
  intro f
  induction f with
  | zero =>
    intro u v h
    exact ⟨[], by simpa [reachBnd, walkOk] using h⟩
  | succ f ih =>
    intro u v h
    simp only [reachBnd, Bool.or_eq_true, List.any_eq_true] at h
    rcases h with h | ⟨w, hw, hr⟩
    · exact ⟨[], by simpa [walkOk] using h⟩
    · obtain ⟨l, hl⟩ := ih hr
      refine ⟨w :: l, ?_⟩
      simp only [walkOk, Bool.and_eq_true]
      exact ⟨isEdge_iff.mpr (mem_succs.mp hw), hl⟩

theorem hasCycleB_sound {g : Graph} (h : hasCycleB g = true) :
    ∃ v l, l ≠ [] ∧ walkOk g v l v = true := by
  simp only [hasCycleB, List.any_eq_true] at h
  obtain ⟨v, _, w, hw, hr⟩ := h
  obtain ⟨l, hl⟩ := walk_of_reachBnd hr
  refine ⟨v, w :: l, by simp, ?_⟩
  simp only [walkOk, Bool.and_eq_true]
  exact ⟨isEdge_iff.mpr (mem_succs.mp hw), hl⟩

theorem hasCycleB_complete {g : Graph} (hwf : g.wf) {v : Nat} {l : List Nat}
    (hne : l ≠ []) (hw : walkOk g v l v = true) : hasCycleB g = true := by
  cases l with
  | nil => exact absurd rfl hne
  | cons w ws =>
    simp only [walkOk, Bool.and_eq_true] at hw
    have hvw : (v, w) ∈ g.edges := isEdge_iff.mp hw.1
    have hvlt : v < g.numNodes := (hwf _ hvw).1
    have hwlt : ∀ x ∈ ws, x < g.numNodes := walk_elems_lt hwf hw.2
    obtain ⟨l', hlen', hw', _⟩ :=
      walk_shorten (g := g) ws.length ws w v (le_refl _) hw.2 hwlt
    simp only [hasCycleB, List.any_eq_true]
    exact ⟨v, List.mem_range.mpr hvlt, w, mem_succs.mpr hvw,
      reachBnd_mono hlen' (reachBnd_of_walk hw')⟩

theorem cycleFree_iff {g : Graph} (hwf : g.wf) :
    hasCycleB g = false ↔ CycleFree g := by
  constructor
  · intro h v l hne
    by_contra hw
    rw [Bool.not_eq_false] at hw
    rw [hasCycleB_complete hwf hne hw] at h
    cases h
  · intro h
    by_contra hc
    rw [Bool.not_eq_false] at hc
    obtain ⟨v, l, hne, hw⟩ := hasCycleB_sound hc
    rw [h v l hne] at hw
    cases hw

/-- Modelled from the spec: per-node eligibility status (§3 Data Model); the
definition of `segment.cc` is not among the sources, only its header. -/
inductive EligibilityStatus
  | Excluded
  | Ineligible
  | Eligible
  | Mandatory
  | Weak
  deriving Repr, DecidableEq

/-- Modelled from the spec (§4.1 Eligibility Classifier): the exclude list wins
over the candidate predicate; the mandatory and weak predicates are evaluated
only for candidates; mandatory takes precedence over weak. -/
def classify (excl : List Nat) (is_candidate_fn is_mandatory_fn is_weak_fn : Nat → Bool)
    (v : Nat) : EligibilityStatus :=
  if excl.contains v then .Excluded
  else if ! is_candidate_fn v then .Ineligible
  else if is_mandatory_fn v then .Mandatory
  else if is_weak_fn v then .Weak
  else .Eligible

/-- A node may be merged into a cluster iff its status is Eligible, Mandatory or
Weak (Excluded and Ineligible nodes are never merged into any cluster). -/
def mergeable : EligibilityStatus → Bool
  | .Eligible => true
  | .Mandatory => true
  | .Weak => true
  | .Excluded => false
  | .Ineligible => false

/-- Modelled from the spec (§4.2 Union-Find Cluster Store, §9): clusters are
kept as a flat table mapping each node id to its cluster representative. -/
def find (uf : List Nat) (v : Nat) : Nat := uf.getD v v

/-- One cluster per node at initialization. -/
def initUF (n : Nat) : List Nat := List.range n

/-- Merge the cluster with representative `rb` into the one with representative
`ra`: every table entry equal to `rb` is redirected to `ra`. -/
def mergeClusters (uf : List Nat) (ra rb : Nat) : List Nat :=
  uf.map (fun x => if x = rb then ra else x)

/-- The quotient graph of `g` under a block map `f`: contract every block of
`f` to a single point, dropping intra-block edges. -/
def mapQuotient (g : Graph) (f : Nat → Nat) : Graph :=
  ⟨g.numNodes, g.edges.filterMap (fun e =>
    if f e.1 = f e.2 then none else some (f e.1, f e.2))⟩

/-- The quotient graph obtained by contracting every cluster to a single point. -/
def quotientG (g : Graph) (uf : List Nat) : Graph := mapQuotient g (find uf)

/-- Modelled from the spec (§4.2): `can_merge` returns false exactly when
merging the two clusters would create a cycle in the contracted graph (the
ancestor sets are required to be kept exact, so the check coincides with this
condition). -/
def canMerge (g : Graph) (uf : List Nat) (ra rb : Nat) : Bool :=
  ! hasCycleB (quotientG g (mergeClusters uf ra rb))

/-- Modelled from the spec (§4.3 Contraction Engine): attempt to merge the two
clusters adjacent along edge `e`; both endpoints must be mergeable, the
clusters distinct, and the merge must pass the cycle check. -/
def tryMergeEdge (g : Graph) (st : Nat → EligibilityStatus) (uf : List Nat)
    (e : Nat × Nat) : List Nat :=
  if mergeable (st e.1) && mergeable (st e.2) && find uf e.1 != find uf e.2 &&
      canMerge g uf (find uf e.1) (find uf e.2) then
    mergeClusters uf (find uf e.1) (find uf e.2)
  else uf

/-- One pass over the candidate edges in the fixed deterministic edge order. -/
def contractPass (g : Graph) (st : Nat → EligibilityStatus) (uf : List Nat) : List Nat :=
  g.edges.foldl (tryMergeEdge g st) uf

/-- Repeat passes until a fixed point (fuel-bounded; `numNodes` passes suffice
because each non-trivial pass strictly reduces the number of clusters). -/
def contractLoop (g : Graph) (st : Nat → EligibilityStatus) : Nat → List Nat → List Nat
  | 0, uf => uf
  | f+1, uf =>
    let uf2 := contractPass g st uf
    if uf2 = uf then uf else contractLoop g st f uf2

/-- Modelled from the spec (§4.3): the full contraction fixed-point loop. -/
def contract (g : Graph) (st : Nat → EligibilityStatus) : List Nat :=
  contractLoop g st g.numNodes (initUF g.numNodes)

/-- Union-find table well-formedness: full length, in-range entries, and
idempotent representative lookup. -/
def UFgood (n : Nat) (uf : List Nat) : Prop :=
  uf.length = n ∧ ∀ v, v < n → find uf v < n ∧ find uf (find uf v) = find uf v

/-- Number of distinct clusters over the node range. -/
def numClusters (uf : List Nat) (n : Nat) : Nat :=
  ((List.range n).map (find uf)).toFinset.card

theorem find_initUF (n v : Nat) : find (initUF n) v = v := by
  by_cases h : v < n
  · simp [find, initUF, List.getD_eq_getElem?_getD, List.getElem?_range h]
  · have hnone : (List.range n)[v]? = none := by
      rw [List.getElem?_eq_none]
      simp only [List.length_range]
      omega
    simp [find, initUF, List.getD_eq_getElem?_getD, hnone]

theorem find_map (uf : List Nat) (f : Nat → Nat) (v : Nat) (hv : v < uf.length) :
    find (uf.map f) v = f (find uf v) := by
  have h1 : (uf.map f)[v]? = some (f uf[v]) := by
    rw [List.getElem?_map, List.getElem?_eq_getElem hv]
    rfl
  have h2 : uf[v]? = some uf[v] := List.getElem?_eq_getElem hv
  simp [find, List.getD_eq_getElem?_getD, h1, h2]

theorem find_mergeClusters {uf : List Nat} {ra rb v : Nat} (hv : v < uf.length) :
    find (mergeClusters uf ra rb) v = if find uf v = rb then ra else find uf v := by
  rw [mergeClusters, find_map uf _ v hv]

theorem mergeClusters_length (uf : List Nat) (ra rb : Nat) :
    (mergeClusters uf ra rb).length = uf.length := by
  simp [mergeClusters]

theorem UFgood_initUF (n : Nat) : UFgood n (initUF n) := by
  refine ⟨by simp [initUF], ?_⟩
  intro v hv
  simp [find_initUF, hv]

theorem UFgood_mergeClusters {n : Nat} {uf : List Nat} {ra rb : Nat}
    (hgood : UFgood n uf) (hra : ra < n) (hfix : find uf ra = ra) :
    UFgood n (mergeClusters uf ra rb) := by
  obtain ⟨hlen, hinv⟩ := hgood
  refine ⟨by simp [mergeClusters, hlen], ?_⟩
  intro v hv
  have hv' : v < uf.length := by omega
  rw [find_mergeClusters hv']
  by_cases hb : find uf v = rb
  · rw [if_pos hb]
    have hra' : ra < uf.length := by omega
    rw [find_mergeClusters hra', hfix]
    exact ⟨hra, by rw [ite_self]⟩
  · rw [if_neg hb]
    have h1 := hinv v hv
    have h2 : find uf v < uf.length := by rw [hlen]; exact h1.1
    rw [find_mergeClusters h2, h1.2, if_neg hb]
    exact ⟨h1.1, rfl⟩

/-- The central invariant: the quotient graph obtained by contracting every
cluster to a single point is acyclic. -/
def QAcyclic (g : Graph) (uf : List Nat) : Prop := hasCycleB (quotientG g uf) = false

theorem foldl_inv {α β : Type} (f : α → β → α) (P : α → Prop) :
    ∀ (l : List β) (a : α), (∀ x y, y ∈ l → P x → P (f x y)) → P a → P (l.foldl f a) := by
  intro l
  induction l with
  | nil => intro a _ ha; simpa using ha
  | cons b t ih =>
    intro a hstep ha
    simp only [List.foldl_cons]
    exact ih (f a b) (fun x y hy hx => hstep x y (List.mem_cons_of_mem _ hy) hx)
      (hstep a b (List.mem_cons_self _ _) ha)

theorem mem_mapQuotient {g : Graph} {f : Nat → Nat} {e' : Nat × Nat} :
    e' ∈ (mapQuotient g f).edges ↔
      ∃ e ∈ g.edges, f e.1 ≠ f e.2 ∧ e' = (f e.1, f e.2) := by
  simp only [mapQuotient, List.mem_filterMap]
  constructor
  · rintro ⟨e, he, hsome⟩
    by_cases hf : f e.1 = f e.2
    · rw [if_pos hf] at hsome; cases hsome
    · rw [if_neg hf] at hsome
      exact ⟨e, he, hf, (Option.some_inj.mp hsome).symm⟩
  · rintro ⟨e, he, hf, rfl⟩
    exact ⟨e, he, by rw [if_neg hf]⟩

theorem mapQuotient_wf {g : Graph} {f : Nat → Nat} (hwf : g.wf)
    (hf : ∀ v, v < g.numNodes → f v < g.numNodes) : (mapQuotient g f).wf := by
  intro e' he'
  obtain ⟨e, he, _, rfl⟩ := mem_mapQuotient.mp he'
  exact ⟨hf e.1 (hwf e he).1, hf e.2 (hwf e he).2⟩

theorem quotientG_wf {g : Graph} {uf : List Nat} (hwf : g.wf)
    (hgood : UFgood g.numNodes uf) : (quotientG g uf).wf :=
  mapQuotient_wf hwf (fun v hv => (hgood.2 v hv).1)

theorem walk_mono {g1 g2 : Graph} (hsub : ∀ e ∈ g1.edges, e ∈ g2.edges) :
    ∀ {l : List Nat} {u v : Nat}, walkOk g1 u l v = true → walkOk g2 u l v = true := by
  intro l
  induction l with
  | nil => intro u v h; simpa [walkOk] using h
  | cons w ws ih =>
    intro u v h
    simp only [walkOk, Bool.and_eq_true] at h ⊢
    exact ⟨isEdge_iff.mpr (hsub _ (isEdge_iff.mp h.1)), ih h.2⟩

theorem hasCycleB_false_of_subset {g1 g2 : Graph} (hwf2 : g2.wf)
    (hsub : ∀ e ∈ g1.edges, e ∈ g2.edges) (h2 : hasCycleB g2 = false) :
    hasCycleB g1 = false := by
  by_contra hc
  rw [Bool.not_eq_false] at hc
  obtain ⟨v, l, hne, hw⟩ := hasCycleB_sound hc
  rw [hasCycleB_complete hwf2 hne (walk_mono hsub hw)] at h2
  cases h2

theorem QAcyclic_initUF {g : Graph} (hwf : g.wf) (hg : hasCycleB g = false) :
    QAcyclic g (initUF g.numNodes) := by
  apply hasCycleB_false_of_subset hwf _ hg
  intro e he
  obtain ⟨e0, he0, _, rfl⟩ := mem_mapQuotient.mp he
  simpa [find_initUF] using he0

theorem QAcyclic_tryMergeEdge {g : Graph} {st : Nat → EligibilityStatus}
    {uf : List Nat} {e : Nat × Nat} (h : QAcyclic g uf) :
    QAcyclic g (tryMergeEdge g st uf e) := by
  unfold tryMergeEdge
  split
  next hcond =>
    simp only [Bool.and_eq_true] at hcond
    have hcm := hcond.2
    rw [canMerge, Bool.not_eq_eq_eq_not, Bool.not_true] at hcm
    exact hcm
  next => exact h

theorem QAcyclic_contractPass {g : Graph} {st : Nat → EligibilityStatus}
    {uf : List Nat} (h : QAcyclic g uf) : QAcyclic g (contractPass g st uf) :=
  foldl_inv _ _ _ _ (fun _ _ _ hx => QAcyclic_tryMergeEdge hx) h

theorem QAcyclic_contractLoop {g : Graph} {st : Nat → EligibilityStatus} :
    ∀ (fuel : Nat) {uf : List Nat}, QAcyclic g uf →
      QAcyclic g (contractLoop g st fuel uf) := by
  intro fuel
  induction fuel with
  | zero => intro uf h; exact h
  | succ f ih =>
    intro uf h
    rw [contractLoop]
    split
    · exact h
    · exact ih (QAcyclic_contractPass h)

theorem QAcyclic_contract {g : Graph} {st : Nat → EligibilityStatus}
    (hwf : g.wf) (hg : hasCycleB g = false) : QAcyclic g (contract g st) :=
  QAcyclic_contractLoop _ (QAcyclic_initUF hwf hg)

theorem UFgood_tryMergeEdge {g : Graph} {st : Nat → EligibilityStatus}
    {uf : List Nat} {e : Nat × Nat} (hwf : g.wf) (he : e ∈ g.edges)
    (hgood : UFgood g.numNodes uf) : UFgood g.numNodes (tryMergeEdge g st uf e) := by
  unfold tryMergeEdge
  split
  · exact UFgood_mergeClusters hgood ((hgood.2 e.1 (hwf e he).1).1)
      ((hgood.2 e.1 (hwf e he).1).2)
  · exact hgood

theorem UFgood_contractPass {g : Graph} {st : Nat → EligibilityStatus}
    {uf : List Nat} (hwf : g.wf) (hgood : UFgood g.numNodes uf) :
    UFgood g.numNodes (contractPass g st uf) :=
  foldl_inv _ _ _ _ (fun _ _ he hx => UFgood_tryMergeEdge hwf he hx) hgood

theorem UFgood_contractLoop {g : Graph} {st : Nat → EligibilityStatus}
    (hwf : g.wf) : ∀ (fuel : Nat) {uf : List Nat}, UFgood g.numNodes uf →
      UFgood g.numNodes (contractLoop g st fuel uf) := by
  intro fuel
  induction fuel with
  | zero => intro uf h; exact h
  | succ f ih =>
    intro uf h
    rw [contractLoop]
    split
    · exact h
    · exact ih (UFgood_contractPass hwf h)

theorem UFgood_contract {g : Graph} {st : Nat → EligibilityStatus} (hwf : g.wf) :
    UFgood g.numNodes (contract g st) :=
  UFgood_contractLoop hwf _ (UFgood_initUF g.numNodes)

/-- Cluster homogeneity: any two distinct nodes in a common cluster are both
mergeable (Excluded and Ineligible nodes are never merged into any cluster). -/
def Homog (st : Nat → EligibilityStatus) (n : Nat) (uf : List Nat) : Prop :=
  ∀ u v, u < n → v < n → u ≠ v → find uf u = find uf v →
    mergeable (st u) = true ∧ mergeable (st v) = true

theorem Homog_initUF (st : Nat → EligibilityStatus) (n : Nat) :
    Homog st n (initUF n) := by
  intro u v _ _ hne heq
  rw [find_initUF, find_initUF] at heq
  exact absurd heq hne

theorem Homog_tryMergeEdge {g : Graph} {st : Nat → EligibilityStatus}
    {uf : List Nat} {e : Nat × Nat} (hwf : g.wf) (he : e ∈ g.edges)
    (hgood : UFgood g.numNodes uf) (h : Homog st g.numNodes uf) :
    Homog st g.numNodes (tryMergeEdge g st uf e) := by
  unfold tryMergeEdge
  split
  next hcond =>
    simp only [Bool.and_eq_true, bne_iff_ne, ne_eq] at hcond
    obtain ⟨⟨⟨hm1, hm2⟩, _⟩, _⟩ := hcond
    have he1 : e.1 < g.numNodes := (hwf e he).1
    have he2 : e.2 < g.numNodes := (hwf e he).2
    intro u v hu hv hne heq
    have hu' : u < uf.length := by rw [hgood.1]; exact hu
    have hv' : v < uf.length := by rw [hgood.1]; exact hv
    rw [find_mergeClusters hu', find_mergeClusters hv'] at heq
    have key : ∀ w, w < g.numNodes → find uf w = find uf e.2 →
        mergeable (st w) = true := by
      intro w hw hweq
      by_cases hwe : w = e.2
      · rw [hwe]; exact hm2
      · exact (h w e.2 hw he2 hwe hweq).1
    have key1 : ∀ w, w < g.numNodes → find uf w = find uf e.1 →
        mergeable (st w) = true := by
      intro w hw hweq
      by_cases hwe : w = e.1
      · rw [hwe]; exact hm1
      · exact (h w e.1 hw he1 hwe hweq).1
    by_cases hcu : find uf u = find uf e.2 <;> by_cases hcv : find uf v = find uf e.2
    · exact ⟨key u hu hcu, key v hv hcv⟩
    · rw [if_pos hcu, if_neg hcv] at heq
      exact ⟨key u hu hcu, key1 v hv heq.symm⟩
    · rw [if_neg hcu, if_pos hcv] at heq
      exact ⟨key1 u hu heq, key v hv hcv⟩
    · rw [if_neg hcu, if_neg hcv] at heq
      exact h u v hu hv hne heq
  next => exact h

theorem Homog_contractPass {g : Graph} {st : Nat → EligibilityStatus}
    {uf : List Nat} (hwf : g.wf) (hgood : UFgood g.numNodes uf)
    (h : Homog st g.numNodes uf) :
    Homog st g.numNodes (contractPass g st uf) := by
  have hpair : UFgood g.numNodes (contractPass g st uf) ∧
      Homog st g.numNodes (contractPass g st uf) := by
    refine foldl_inv _ (fun a => UFgood g.numNodes a ∧ Homog st g.numNodes a) _ _
      ?_ ⟨hgood, h⟩
    intro x y hy hx
    exact ⟨UFgood_tryMergeEdge hwf hy hx.1, Homog_tryMergeEdge hwf hy hx.1 hx.2⟩
  exact hpair.2

theorem Homog_contractLoop {g : Graph} {st : Nat → EligibilityStatus}
    (hwf : g.wf) : ∀ (fuel : Nat) {uf : List Nat}, UFgood g.numNodes uf →
      Homog st g.numNodes uf → Homog st g.numNodes (contractLoop g st fuel uf) := by
  intro fuel
  induction fuel with
  | zero => intro uf _ h; exact h
  | succ f ih =>
    intro uf hgood h
    rw [contractLoop]
    split
    · exact h
    · exact ih (UFgood_contractPass hwf hgood) (Homog_contractPass hwf hgood h)

theorem Homog_contract {g : Graph} {st : Nat → EligibilityStatus} (hwf : g.wf) :
    Homog st g.numNodes (contract g st) :=
  Homog_contractLoop hwf _ (UFgood_initUF g.numNodes) (Homog_initUF st g.numNodes)

theorem mem_clusterImage {uf : List Nat} {n x : Nat} :
    x ∈ ((List.range n).map (find uf)).toFinset ↔ ∃ v, v < n ∧ find uf v = x := by
  simp [List.mem_toFinset, List.mem_map, List.mem_range]

theorem numClusters_mergeClusters_lt {n : Nat} {uf : List Nat} {ra rb : Nat}
    (hgood : UFgood n uf) (p : Nat) (hp : p < n) (hpa : find uf p = ra)
    (c : Nat) (hc : c < n) (hcb : find uf c = rb) (hne : ra ≠ rb) :
    numClusters (mergeClusters uf ra rb) n < numClusters uf n := by
  have hrb_mem : rb ∈ ((List.range n).map (find uf)).toFinset :=
    mem_clusterImage.mpr ⟨c, hc, hcb⟩
  have hra_mem : ra ∈ ((List.range n).map (find uf)).toFinset :=
    mem_clusterImage.mpr ⟨p, hp, hpa⟩
  have hsub : ((List.range n).map (find (mergeClusters uf ra rb))).toFinset ⊆
      (((List.range n).map (find uf)).toFinset).erase rb := by
    intro x hx
    obtain ⟨v, hv, hfv⟩ := mem_clusterImage.mp hx
    have hv' : v < uf.length := by rw [hgood.1]; exact hv
    rw [find_mergeClusters hv'] at hfv
    by_cases hcond : find uf v = rb
    · rw [if_pos hcond] at hfv
      subst hfv
      exact Finset.mem_erase.mpr ⟨hne, hra_mem⟩
    · rw [if_neg hcond] at hfv
      subst hfv
      exact Finset.mem_erase.mpr ⟨hcond, mem_clusterImage.mpr ⟨v, hv, rfl⟩⟩
  have h1 : numClusters (mergeClusters uf ra rb) n ≤
      ((((List.range n).map (find uf)).toFinset).erase rb).card :=
    Finset.card_le_card hsub
  have h2 := Finset.card_erase_of_mem hrb_mem
  have h3 : 1 ≤ ((List.range n).map (find uf)).toFinset.card :=
    Finset.card_pos.mpr ⟨rb, hrb_mem⟩
  unfold numClusters at h1 ⊢
  omega

theorem tryMergeEdge_numClusters {g : Graph} {st : Nat → EligibilityStatus}
    {uf : List Nat} {e : Nat × Nat} (hwf : g.wf) (he : e ∈ g.edges)
    (hgood : UFgood g.numNodes uf) :
    tryMergeEdge g st uf e = uf ∨
      numClusters (tryMergeEdge g st uf e) g.numNodes < numClusters uf g.numNodes := by
  unfold tryMergeEdge
  split
  next hcond =>
    simp only [Bool.and_eq_true, bne_iff_ne, ne_eq] at hcond
    exact Or.inr (numClusters_mergeClusters_lt hgood e.1 (hwf e he).1 rfl
      e.2 (hwf e he).2 rfl hcond.1.2)
  next => exact Or.inl rfl

theorem foldl_numClusters {g : Graph} {st : Nat → EligibilityStatus} (hwf : g.wf) :
    ∀ (l : List (Nat × Nat)) (uf : List Nat), (∀ e ∈ l, e ∈ g.edges) →
      UFgood g.numNodes uf →
      l.foldl (tryMergeEdge g st) uf = uf ∨
        numClusters (l.foldl (tryMergeEdge g st) uf) g.numNodes <
          numClusters uf g.numNodes := by
  intro l
  induction l with
  | nil => intro uf _ _; exact Or.inl rfl
  | cons e t ih =>
    intro uf hmem hgood
    simp only [List.foldl_cons]
    have he : e ∈ g.edges := hmem e (List.mem_cons_self _ _)
    have hgood1 : UFgood g.numNodes (tryMergeEdge g st uf e) :=
      UFgood_tryMergeEdge hwf he hgood
    rcases @tryMergeEdge_numClusters g st uf e hwf he hgood with heq | hlt
    · rw [heq]
      exact ih uf (fun x hx => hmem x (List.mem_cons_of_mem _ hx)) hgood
    · rcases ih (tryMergeEdge g st uf e)
        (fun x hx => hmem x (List.mem_cons_of_mem _ hx)) hgood1 with heq2 | hlt2
      · rw [heq2]; exact Or.inr hlt
      · exact Or.inr (lt_trans hlt2 hlt)

theorem contractPass_numClusters {g : Graph} {st : Nat → EligibilityStatus}
    {uf : List Nat} (hwf : g.wf) (hgood : UFgood g.numNodes uf) :
    contractPass g st uf = uf ∨
      numClusters (contractPass g st uf) g.numNodes < numClusters uf g.numNodes :=
  foldl_numClusters hwf g.edges uf (fun _ hx => hx) hgood

theorem contractLoop_fix {g : Graph} {st : Nat → EligibilityStatus} (hwf : g.wf) :
    ∀ (fuel : Nat) (uf : List Nat), UFgood g.numNodes uf →
      numClusters uf g.numNodes ≤ fuel →
      contractPass g st (contractLoop g st fuel uf) = contractLoop g st fuel uf := by
  intro fuel
  induction fuel with
  | zero =>
    intro uf hgood hle
    have hn : g.numNodes = 0 := by
      by_contra hn0
      have : 0 ∈ ((List.range g.numNodes).map (find uf)).toFinset ∨
          find uf 0 ∈ ((List.range g.numNodes).map (find uf)).toFinset := by
        right
        exact mem_clusterImage.mpr ⟨0, by omega, rfl⟩
      have hpos : 0 < numClusters uf g.numNodes := by
        rcases this with h | h
        · exact Finset.card_pos.mpr ⟨0, h⟩
        · exact Finset.card_pos.mpr ⟨find uf 0, h⟩
      omega
    have hedges : g.edges = [] := by
      rw [List.eq_nil_iff_forall_not_mem]
      intro e he
      have := (hwf e he).1
      omega
    simp [contractLoop, contractPass, hedges]
  | succ f ih =>
    intro uf hgood hle
    rw [contractLoop]
    split
    next heq => exact heq
    next hne =>
      have hlt : numClusters (contractPass g st uf) g.numNodes <
          numClusters uf g.numNodes := by
        rcases @contractPass_numClusters g st uf hwf hgood with h | h
        · exact absurd h hne
        · exact h
      exact ih (contractPass g st uf) (UFgood_contractPass hwf hgood) (by omega)

theorem numClusters_initUF (n : Nat) : numClusters (initUF n) n = n := by
  unfold numClusters
  have h : (List.range n).map (find (initUF n)) = List.range n := by
    have h2 : (List.range n).map (find (initUF n)) = (List.range n).map id :=
      List.map_congr_left (fun a _ => find_initUF n a)
    rw [h2, List.map_id]
  rw [h, List.toFinset_card_of_nodup (List.nodup_range n), List.length_range]

/-- The contraction loop reaches a fixed point of `contractPass` within the
`numNodes` passes it is given. -/
theorem contract_fix {g : Graph} {st : Nat → EligibilityStatus} (hwf : g.wf) :
    contractPass g st (contract g st) = contract g st := by
  unfold contract
  exact contractLoop_fix hwf g.numNodes (initUF g.numNodes)
    (UFgood_initUF g.numNodes) (le_of_eq (numClusters_initUF g.numNodes))

/-- Embedded from `segment.h`: the options of the segmenter.  A segment must
contain at least `minimum_segment_size` nodes; nodes named in
`exclude_node_list` are forced out of every segment. -/
structure SegmentOptions where
  minimum_segment_size : Int := 2
  exclude_node_list : List Nat := []
  deriving Repr, DecidableEq

/-- The default-constructed `SegmentOptions`. -/
def defaultSegmentOptions : SegmentOptions := {}

/-- Embedded from `segment.h`: vector of segments, each entry a set of node
names (here: sorted dense ids) with the assigned device name. -/
abbrev SegmentNodesVector := List (List Nat × String)

/-- First-occurrence deduplication, preserving discovery order. -/
def dedupFirst : List Nat → List Nat
  | [] => []
  | x :: xs => x :: (dedupFirst xs).filter (fun y => y ≠ x)

/-- Cluster representatives in discovery order (first occurrence over the
stable node enumeration). -/
def clusterReps (uf : List Nat) (n : Nat) : List Nat :=
  dedupFirst ((List.range n).map (find uf))

/-- The member nodes of the cluster with representative `r`. -/
def clusterMembers (uf : List Nat) (n : Nat) (r : Nat) : List Nat :=
  (List.range n).filter (fun v => find uf v == r)

/-- Count of the members that do not carry the Weak status (Weak nodes do not
count toward the minimum-size threshold). -/
def countNonWeak (st : Nat → EligibilityStatus) (ms : List Nat) : Nat :=
  (ms.filter (fun v => decide (st v ≠ EligibilityStatus.Weak))).length

/-- Does cluster `r` survive as a segment: all members mergeable and at least
`msize` non-Weak members. -/
def emitted (st : Nat → EligibilityStatus) (msize : Int) (memb : Nat → List Nat)
    (r : Nat) : Bool :=
  (memb r).all (fun v => mergeable (st v)) &&
    decide (msize ≤ (countNonWeak st (memb r) : Int))

/-- Modelled from the spec (§4.4 Segment Assembler; `segment.cc` is not among
the sources): for each surviving cluster in discovery order, count the
non-Weak members; drop the cluster if the count is below the minimum segment
size, unless it contains a Mandatory node, in which case the whole operation
fails; otherwise emit the segment with a deterministic device label built from
a stable incrementing index. -/
def assembleSegments (st : Nat → EligibilityStatus) (msize : Int)
    (memb : Nat → List Nat) : List Nat → Nat → Except String SegmentNodesVector
  | [], _ => .ok []
  | r :: rs, idx =>
    if (memb r).all (fun v => mergeable (st v)) then
      if msize ≤ (countNonWeak st (memb r) : Int) then
        match assembleSegments st msize memb rs (idx + 1) with
        | .ok segs => .ok ((memb r, "device_" ++ toString idx) :: segs)
        | .error msg => .error msg
      else if (memb r).any (fun v => decide (st v = EligibilityStatus.Mandatory)) then
        .error "InvalidArgument: a mandatory node cannot be placed in a segment"
      else assembleSegments st msize memb rs idx
    else assembleSegments st msize memb rs idx

/-- Modelled from the spec (§6 External Interfaces, §4.3, §4.4; only the
declaration of `SegmentGraph` is among the sources): validate the options,
classify each node, contract clusters to the fixed point, then assemble the
ordered segment list. -/
def SegmentGraph (g : Graph) (is_candidate_fn : Nat → Bool)
    (options : SegmentOptions) (is_mandatory_fn is_weak_fn : Nat → Bool) :
    Except String SegmentNodesVector :=
  if options.minimum_segment_size < 1 then
    .error "InvalidArgument: minimum_segment_size must be at least 1"
  else
    assembleSegments
      (classify options.exclude_node_list is_candidate_fn is_mandatory_fn is_weak_fn)
      options.minimum_segment_size
      (clusterMembers
        (contract g
          (classify options.exclude_node_list is_candidate_fn is_mandatory_fn is_weak_fn))
        g.numNodes)
      (clusterReps
        (contract g
          (classify options.exclude_node_list is_candidate_fn is_mandatory_fn is_weak_fn))
        g.numNodes)
      0

/-- The default mandatory/weak predicate of `segment.h`: always false. -/
def defaultTagFn : Nat → Bool := fun _ => false

/-- A serialized graph definition (abstraction of `GraphDef`): one entry per
node in the stable enumeration, holding the node's ordered producer list. -/
structure GraphDef where
  nodeInputs : List (List Nat)
  deriving Repr, DecidableEq

/-- Materialize the in-memory graph from a serialized graph definition. -/
def graphOfGraphDef (gdef : GraphDef) : Graph :=
  ⟨gdef.nodeInputs.length,
    (gdef.nodeInputs.enum.map (fun ic => ic.2.map (fun p => (p, ic.1)))).flatten⟩

/-- Modelled from the spec (§6): the `GraphDef` overload of `SegmentGraph`
materializes the graph from the serialized definition and partitions it with
the same semantics, the mandatory and weak predicates defaulting to
always-false. -/
def SegmentGraphDef (gdef : GraphDef) (is_candidate_fn : Nat → Bool)
    (options : SegmentOptions) : Except String SegmentNodesVector :=
  SegmentGraph (graphOfGraphDef gdef) is_candidate_fn options defaultTagFn defaultTagFn

/-- Modelled from the spec (§4.4, §4.5): an edge is an entering boundary edge
of a segment iff its producer is outside and its consumer inside the segment. -/
def enteringEdges (g : Graph) (seg : List Nat) : List (Nat × Nat) :=
  g.edges.filter (fun e => !seg.contains e.1 && seg.contains e.2)

/-- Modelled from the spec (§4.4, §4.5): an edge is an exiting boundary edge
of a segment iff its producer is inside and its consumer outside the segment. -/
def exitingEdges (g : Graph) (seg : List Nat) : List (Nat × Nat) :=
  g.edges.filter (fun e => seg.contains e.1 && !seg.contains e.2)

theorem mem_dedupFirst : ∀ (l : List Nat) (a : Nat), a ∈ dedupFirst l ↔ a ∈ l := by
  intro l
  induction l with
  | nil => intro a; simp [dedupFirst]
  | cons x xs ih =>
    intro a
    simp only [dedupFirst, List.mem_cons, List.mem_filter, ih, decide_eq_true_eq]
    constructor
    · rintro (rfl | ⟨h, _⟩)
      · exact Or.inl rfl
      · exact Or.inr h
    · rintro (rfl | h)
      · exact Or.inl rfl
      · by_cases hax : a = x
        · exact Or.inl hax
        · exact Or.inr ⟨h, hax⟩

theorem nodup_dedupFirst : ∀ (l : List Nat), (dedupFirst l).Nodup := by
  intro l
  induction l with
  | nil => simp [dedupFirst]
  | cons x xs ih =>
    rw [dedupFirst, List.nodup_cons]
    constructor
    · intro hmem
      have := (List.mem_filter.mp hmem).2
      simp at this
    · exact List.Nodup.filter _ ih

theorem mem_clusterReps {uf : List Nat} {n r : Nat} :
    r ∈ clusterReps uf n ↔ ∃ v, v < n ∧ find uf v = r := by
  rw [clusterReps, mem_dedupFirst]
  simp [List.mem_map, List.mem_range]

theorem nodup_clusterReps (uf : List Nat) (n : Nat) : (clusterReps uf n).Nodup :=
  nodup_dedupFirst _

theorem mem_clusterMembers {uf : List Nat} {n r v : Nat} :
    v ∈ clusterMembers uf n r ↔ v < n ∧ find uf v = r := by
  simp [clusterMembers, List.mem_filter, List.mem_range]

theorem assemble_ok_map_fst {st : Nat → EligibilityStatus} {msize : Int}
    {memb : Nat → List Nat} :
    ∀ (reps : List Nat) (idx : Nat) (segs : SegmentNodesVector),
      assembleSegments st msize memb reps idx = .ok segs →
      segs.map Prod.fst = (reps.filter (emitted st msize memb)).map memb := by
  intro reps
  induction reps with
  | nil =>
    intro idx segs h
    simp only [assembleSegments] at h
    injection h with h2
    subst h2
    simp
  | cons r rs ih =>
    intro idx segs h
    simp only [assembleSegments] at h
    by_cases hall : (memb r).all (fun v => mergeable (st v)) = true
    · rw [if_pos hall] at h
      by_cases hsize : msize ≤ (countNonWeak st (memb r) : Int)
      · rw [if_pos hsize] at h
        have hemit : emitted st msize memb r = true := by
          simp [emitted, hall, hsize]
        cases hrec : assembleSegments st msize memb rs (idx + 1) with
        | ok segs' =>
          rw [hrec] at h
          injection h with h2
          subst h2
          rw [List.map_cons, List.filter_cons_of_pos hemit, List.map_cons]
          rw [ih (idx + 1) segs' hrec]
        | error msg =>
          rw [hrec] at h
          cases h
      · rw [if_neg hsize] at h
        have hemit : emitted st msize memb r = false := by
          simp [emitted, hsize]
        rw [List.filter_cons_of_neg (by simp [hemit])]
        by_cases hmand : (memb r).any (fun v => decide (st v = EligibilityStatus.Mandatory)) = true
        · rw [if_pos hmand] at h
          cases h
        · rw [if_neg hmand] at h
          exact ih idx segs h
    · rw [if_neg hall] at h
      have hemit : emitted st msize memb r = false := by
        simp only [emitted, Bool.and_eq_false_iff]
        left
        exact Bool.not_eq_true _ ▸ (by simpa using hall)
      rw [List.filter_cons_of_neg (by simp [hemit])]
      exact ih idx segs h

theorem assemble_ok_no_drop {st : Nat → EligibilityStatus} {msize : Int}
    {memb : Nat → List Nat} :
    ∀ (reps : List Nat) (idx : Nat) (segs : SegmentNodesVector),
      assembleSegments st msize memb reps idx = .ok segs →
      ∀ r ∈ reps, (memb r).all (fun v => mergeable (st v)) = true →
        ¬ (msize ≤ (countNonWeak st (memb r) : Int)) →
        (memb r).any (fun v => decide (st v = EligibilityStatus.Mandatory)) = false := by
  intro reps
  induction reps with
  | nil => intro idx segs _ r hr; cases hr
  | cons r0 rs ih =>
    intro idx segs h r hr hall hsize
    simp only [assembleSegments] at h
    rcases List.mem_cons.mp hr with rfl | hr'
    · rw [if_pos hall, if_neg hsize] at h
      by_cases hmand : (memb r).any (fun v => decide (st v = EligibilityStatus.Mandatory)) = true
      · rw [if_pos hmand] at h
        cases h
      · exact Bool.not_eq_true _ ▸ (by simpa using hmand)
    · by_cases hall0 : (memb r0).all (fun v => mergeable (st v)) = true
      · rw [if_pos hall0] at h
        by_cases hsize0 : msize ≤ (countNonWeak st (memb r0) : Int)
        · rw [if_pos hsize0] at h
          cases hrec : assembleSegments st msize memb rs (idx + 1) with
          | ok segs' =>
            exact ih (idx + 1) segs' hrec r hr' hall hsize
          | error msg =>
            rw [hrec] at h
            cases h
        · rw [if_neg hsize0] at h
          by_cases hmand0 : (memb r0).any (fun v => decide (st v = EligibilityStatus.Mandatory)) = true
          · rw [if_pos hmand0] at h
            cases h
          · rw [if_neg hmand0] at h
            exact ih idx segs h r hr' hall hsize
      · rw [if_neg hall0] at h
        exact ih idx segs h r hr' hall hsize

theorem assemble_ok_mem_fst {st : Nat → EligibilityStatus} {msize : Int}
    {memb : Nat → List Nat} {reps : List Nat} {idx : Nat} {segs : SegmentNodesVector}
    (h : assembleSegments st msize memb reps idx = .ok segs) :
    ∀ s ∈ segs, ∃ r ∈ reps, emitted st msize memb r = true ∧ s.1 = memb r := by
  intro s hs
  have hmap := assemble_ok_map_fst reps idx segs h
  have : s.1 ∈ segs.map Prod.fst := List.mem_map_of_mem _ hs
  rw [hmap] at this
  obtain ⟨r, hr, hrs⟩ := List.mem_map.mp this
  exact ⟨r, (List.mem_filter.mp hr).1, (List.mem_filter.mp hr).2, hrs.symm⟩

/-- The block map that contracts exactly the emitted clusters (each returned
segment's node set) to a point and leaves every other node alone. -/
def segMap (uf : List Nat) (em : Nat → Bool) (v : Nat) : Nat :=
  if em (find uf v) then find uf v else v

theorem find_out_of_range {uf : List Nat} {v : Nat} (h : uf.length ≤ v) :
    find uf v = v := by
  have hnone : uf[v]? = none := by
    rw [List.getElem?_eq_none]
    exact h
  simp [find, List.getD_eq_getElem?_getD, hnone]

theorem find_idem {n : Nat} {uf : List Nat} (hgood : UFgood n uf) (v : Nat) :
    find uf (find uf v) = find uf v := by
  by_cases hv : v < n
  · exact (hgood.2 v hv).2
  · have h1 : find uf v = v := find_out_of_range (by rw [hgood.1]; omega)
    rw [h1]
    exact h1

theorem segMap_find {n : Nat} {uf : List Nat} {em : Nat → Bool}
    (hgood : UFgood n uf) (v : Nat) :
    find uf (segMap uf em v) = find uf v := by
  rw [segMap]
  split
  · exact find_idem hgood v
  · rfl

theorem segMap_lt {n : Nat} {uf : List Nat} {em : Nat → Bool}
    (hgood : UFgood n uf) {v : Nat} (hv : v < n) : segMap uf em v < n := by
  rw [segMap]
  split
  · exact (hgood.2 v hv).1
  · exact hv

theorem walk_proj {g : Graph} (f : Nat → Nat) :
    ∀ {l : List Nat} {u v : Nat}, walkOk g u l v = true →
      ∃ l2, walkOk (mapQuotient g f) (f u) l2 (f v) = true := by
  intro l
  induction l with
  | nil =>
    intro u v h
    refine ⟨[], ?_⟩
    have : u = v := by simpa [walkOk] using h
    simp [walkOk, this]
  | cons w ws ih =>
    intro u v h
    simp only [walkOk, Bool.and_eq_true] at h
    obtain ⟨l2, hl2⟩ := ih h.2
    by_cases hf : f u = f w
    · exact ⟨l2, by rw [hf]; exact hl2⟩
    · refine ⟨f w :: l2, ?_⟩
      simp only [walkOk, Bool.and_eq_true]
      exact ⟨isEdge_iff.mpr (mem_mapQuotient.mpr ⟨(u, w), isEdge_iff.mp h.1, hf, rfl⟩), hl2⟩

theorem walk_seg_proj {g : Graph} {n : Nat} {uf : List Nat} {em : Nat → Bool}
    (hgood : UFgood n uf) :
    ∀ {l : List Nat} {a b : Nat},
      walkOk (mapQuotient g (segMap uf em)) a l b = true →
      (∃ l2, l2 ≠ [] ∧ walkOk (quotientG g uf) (find uf a) l2 (find uf b) = true) ∨
        walkOk g a l b = true := by
  intro l
  induction l with
  | nil =>
    intro a b h
    right
    simpa [walkOk] using h
  | cons w ws ih =>
    intro a b h
    simp only [walkOk, Bool.and_eq_true] at h
    obtain ⟨e, he, hne, heq⟩ := mem_mapQuotient.mp (isEdge_iff.mp h.1)
    have ha : a = segMap uf em e.1 := congrArg Prod.fst heq
    have hw : w = segMap uf em e.2 := congrArg Prod.snd heq
    have hfa : find uf a = find uf e.1 := by rw [ha]; exact segMap_find hgood e.1
    have hfw : find uf w = find uf e.2 := by rw [hw]; exact segMap_find hgood e.2
    by_cases hst : find uf e.1 = find uf e.2
    · -- the two endpoints lie in one (non-emitted) cluster: a genuine edge of g
      have hem : em (find uf e.1) = false := by
        by_contra hemt
        rw [Bool.not_eq_false] at hemt
        have h1 : segMap uf em e.1 = find uf e.1 := by
          rw [segMap, if_pos hemt]
        have h2 : segMap uf em e.2 = find uf e.2 := by
          rw [segMap, if_pos (by rw [← hst]; exact hemt)]
        exact hne (by rw [h1, h2, hst])
      have ha' : a = e.1 := by rw [ha, segMap, if_neg (by simp [hem])]
      have hw' : w = e.2 := by rw [hw, segMap, ← hst, if_neg (by simp [hem])]
      have hedge : (a, w) ∈ g.edges := by rw [ha', hw']; exact he
      rcases ih h.2 with ⟨l2, hne2, hw2⟩ | hgw
      · left
        refine ⟨l2, hne2, ?_⟩
        rw [hfa, hst, ← hfw]
        exact hw2
      · right
        simp only [walkOk, Bool.and_eq_true]
        exact ⟨isEdge_iff.mpr hedge, hgw⟩
    · -- a genuine edge of the full quotient graph
      have hqe : (find uf a, find uf w) ∈ (quotientG g uf).edges := by
        rw [quotientG]
        exact mem_mapQuotient.mpr ⟨e, he, hst, by rw [hfa, hfw]⟩
      rcases ih h.2 with ⟨l2, _, hw2⟩ | hgw
      · left
        refine ⟨find uf w :: l2, by simp, ?_⟩
        simp only [walkOk, Bool.and_eq_true]
        exact ⟨isEdge_iff.mpr hqe, hw2⟩
      · left
        obtain ⟨l2, hw2⟩ := walk_proj (find uf) hgw
        refine ⟨find uf w :: l2, by simp, ?_⟩
        simp only [walkOk, Bool.and_eq_true]
        rw [quotientG]
        exact ⟨isEdge_iff.mpr hqe, hw2⟩

/-- Contracting exactly the emitted clusters (in particular: every returned
segment's node set) to a point leaves the graph acyclic, provided the input
graph is acyclic and the cluster quotient is acyclic. -/
theorem segQuot_acyclic {g : Graph} {uf : List Nat} {em : Nat → Bool}
    (hwf : g.wf) (hgood : UFgood g.numNodes uf)
    (hg : hasCycleB g = false) (hq : QAcyclic g uf) :
    hasCycleB (mapQuotient g (segMap uf em)) = false := by
  by_contra hc
  rw [Bool.not_eq_false] at hc
  obtain ⟨v, l, hne, hw⟩ := hasCycleB_sound hc
  rcases walk_seg_proj hgood hw with ⟨l2, hne2, hw2⟩ | hgw
  · have hqwf : (quotientG g uf).wf := quotientG_wf hwf hgood
    rw [QAcyclic, hasCycleB_complete hqwf hne2 hw2] at hq
    cases hq
  · rw [hasCycleB_complete hwf hne hgw] at hg
    cases hg

theorem contains_iff_mem {l : List Nat} {a : Nat} : l.contains a = true ↔ a ∈ l := by
  simp [List.contains_iff_exists_mem_beq]

/-- Inversion of a successful `SegmentGraph` run: the options were valid and
the assembler succeeded on the contracted cluster structure. -/
theorem SegmentGraph_ok_inv {g : Graph} {cand mand weak : Nat → Bool}
    {opts : SegmentOptions} {segs : SegmentNodesVector}
    (h : SegmentGraph g cand opts mand weak = .ok segs) :
    1 ≤ opts.minimum_segment_size ∧
      assembleSegments (classify opts.exclude_node_list cand mand weak)
        opts.minimum_segment_size
        (clusterMembers (contract g (classify opts.exclude_node_list cand mand weak))
          g.numNodes)
        (clusterReps (contract g (classify opts.exclude_node_list cand mand weak))
          g.numNodes) 0 = .ok segs := by
  rw [SegmentGraph] at h
  by_cases hms : opts.minimum_segment_size < 1
  · rw [if_pos hms] at h
    cases h
  · rw [if_neg hms] at h
    exact ⟨by omega, h⟩

theorem clusterMembers_disjoint {uf : List Nat} {n r1 r2 : Nat} (hne : r1 ≠ r2) :
    ∀ v, v ∈ clusterMembers uf n r1 → v ∉ clusterMembers uf n r2 := by
  intro v h1 h2
  have e1 := (mem_clusterMembers.mp h1).2
  have e2 := (mem_clusterMembers.mp h2).2
  exact hne (e1 ▸ e2 ▸ rfl)

/-- C2: for every successful run of SegmentGraph, the node-name sets of any
two distinct returned segments are disjoint: every node belongs to at most one
segment. -/
theorem claim2_segments_disjoint {g : Graph} {cand mand weak : Nat → Bool}
    {opts : SegmentOptions} {segs : SegmentNodesVector}
    (h : SegmentGraph g cand opts mand weak = .ok segs) :
    ∀ i j, i < segs.length → j < segs.length → i ≠ j →
      ∀ v, v ∈ (segs.getD i ([], "")).1 → v ∉ (segs.getD j ([], "")).1 := by
  obtain ⟨-, hasm⟩ := SegmentGraph_ok_inv h
  have hmap := assemble_ok_map_fst _ _ _ hasm
  intro i j hi hj hij v hvi hvj
  rw [show segs.getD i ([], "") = segs.get ⟨i, hi⟩ by
    rw [List.getD_eq_getElem?_getD, List.getElem?_eq_getElem hi]; rfl] at hvi
  rw [show segs.getD j ([], "") = segs.get ⟨j, hj⟩ by
    rw [List.getD_eq_getElem?_getD, List.getElem?_eq_getElem hj]; rfl] at hvj
  have hlen : segs.length =
      ((clusterReps (contract g (classify opts.exclude_node_list cand mand weak))
        g.numNodes).filter
        (emitted (classify opts.exclude_node_list cand mand weak)
          opts.minimum_segment_size
          (clusterMembers (contract g (classify opts.exclude_node_list cand mand weak))
            g.numNodes))).length := by
    have h2 := congrArg List.length hmap
    simpa using h2
  have hnd : ((clusterReps (contract g (classify opts.exclude_node_list cand mand weak))
      g.numNodes).filter
      (emitted (classify opts.exclude_node_list cand mand weak)
        opts.minimum_segment_size
        (clusterMembers (contract g (classify opts.exclude_node_list cand mand weak))
          g.numNodes))).Nodup :=
    List.Nodup.filter _ (nodup_clusterReps _ _)
  have hi' : i < (segs.map Prod.fst).length := by simpa using hi
  have hj' : j < (segs.map Prod.fst).length := by simpa using hj
  have hgi : (segs.get ⟨i, hi⟩).1 = (segs.map Prod.fst).get ⟨i, hi'⟩ := by
    simp [List.get_map]
  have hgj : (segs.get ⟨j, hj⟩).1 = (segs.map Prod.fst).get ⟨j, hj'⟩ := by
    simp [List.get_map]
  rw [hgi] at hvi
  rw [hgj] at hvj
  rw [List.get_of_eq hmap] at hvi hvj
  simp only [List.get_map] at hvi hvj
  have r1 := (mem_clusterMembers.mp hvi).2
  have r2 := (mem_clusterMembers.mp hvj).2
  have heq := r1.symm.trans r2
  have : i = j := by
    have hget := (List.Nodup.get_inj_iff hnd).mp heq
    simpa using congrArg Fin.val hget
  exact hij this

/-- In every successful run, every node of every returned segment is mergeable. -/
theorem seg_nodes_mergeable {g : Graph} {cand mand weak : Nat → Bool}
    {opts : SegmentOptions} {segs : SegmentNodesVector}
    (h : SegmentGraph g cand opts mand weak = .ok segs) :
    ∀ s ∈ segs, ∀ v ∈ s.1,
      mergeable (classify opts.exclude_node_list cand mand weak v) = true := by
  obtain ⟨-, hasm⟩ := SegmentGraph_ok_inv h
  intro s hs v hv
  obtain ⟨r, _, hemit, hfst⟩ := assemble_ok_mem_fst hasm s hs
  rw [hfst] at hv
  simp only [emitted, Bool.and_eq_true] at hemit
  exact List.all_eq_true.mp hemit.1 v hv

/-- In every successful run, every returned segment meets the minimum-size
floor counted over non-Weak members. -/
theorem seg_minsize {g : Graph} {cand mand weak : Nat → Bool}
    {opts : SegmentOptions} {segs : SegmentNodesVector}
    (h : SegmentGraph g cand opts mand weak = .ok segs) :
    ∀ s ∈ segs, opts.minimum_segment_size ≤
      (countNonWeak (classify opts.exclude_node_list cand mand weak) s.1 : Int) := by
  obtain ⟨-, hasm⟩ := SegmentGraph_ok_inv h
  intro s hs
  obtain ⟨r, _, hemit, hfst⟩ := assemble_ok_mem_fst hasm s hs
  rw [hfst]
  simp only [emitted, Bool.and_eq_true, decide_eq_true_eq] at hemit
  exact hemit.2

/-- A node whose status is mergeable is a non-excluded candidate. -/
theorem mergeable_classify_inv {excl : List Nat} {cand m2 w2 : Nat → Bool} {v : Nat}
    (h : mergeable (classify excl cand m2 w2 v) = true) :
    v ∉ excl ∧ cand v = true := by
  rw [classify] at h
  by_cases h1 : excl.contains v = true
  · rw [if_pos h1] at h
    simp [mergeable] at h
  · rw [if_neg h1] at h
    by_cases h2 : (! cand v) = true
    · rw [if_pos h2] at h
      simp [mergeable] at h
    · refine ⟨fun hm => h1 (contains_iff_mem.mpr hm), ?_⟩
      simpa using h2

/-- C3: on success, every mandatory node appears in exactly one returned
segment, and every returned segment has at least `minimum_segment_size`
non-weak members; a surviving cluster below the floor is never emitted unless
it holds a mandatory node, in which case the call fails. -/
theorem claim3_mandatory_minsize {g : Graph} {cand mand weak : Nat → Bool}
    {opts : SegmentOptions} {segs : SegmentNodesVector} (hwf : g.wf)
    (h : SegmentGraph g cand opts mand weak = .ok segs) :
    (∀ s ∈ segs, opts.minimum_segment_size ≤
      (countNonWeak (classify opts.exclude_node_list cand mand weak) s.1 : Int)) ∧
    (∀ m, m < g.numNodes →
      classify opts.exclude_node_list cand mand weak m = EligibilityStatus.Mandatory →
      segs.countP (fun s => decide (m ∈ s.1)) = 1) := by
  obtain ⟨-, hasm⟩ := SegmentGraph_ok_inv h
  refine ⟨seg_minsize h, ?_⟩
  intro m hm hst
  have hmap := assemble_ok_map_fst _ _ _ hasm
  have hgoodc : UFgood g.numNodes
      (contract g (classify opts.exclude_node_list cand mand weak)) :=
    UFgood_contract hwf
  have hhom : Homog (classify opts.exclude_node_list cand mand weak) g.numNodes
      (contract g (classify opts.exclude_node_list cand mand weak)) :=
    Homog_contract hwf
  have hme : mergeable (classify opts.exclude_node_list cand mand weak m) = true := by
    rw [hst]; rfl
  have hmemb : m ∈ clusterMembers
      (contract g (classify opts.exclude_node_list cand mand weak)) g.numNodes
      (find (contract g (classify opts.exclude_node_list cand mand weak)) m) :=
    mem_clusterMembers.mpr ⟨hm, rfl⟩
  have hreps : find (contract g (classify opts.exclude_node_list cand mand weak)) m ∈
      clusterReps (contract g (classify opts.exclude_node_list cand mand weak))
        g.numNodes :=
    mem_clusterReps.mpr ⟨m, hm, rfl⟩
  have hall : (clusterMembers
      (contract g (classify opts.exclude_node_list cand mand weak)) g.numNodes
      (find (contract g (classify opts.exclude_node_list cand mand weak)) m)).all
      (fun v => mergeable (classify opts.exclude_node_list cand mand weak v)) = true := by
    rw [List.all_eq_true]
    intro v hv
    obtain ⟨hvn, hfv⟩ := mem_clusterMembers.mp hv
    by_cases hvm : v = m
    · rw [hvm]; exact hme
    · exact (hhom v m hvn hm hvm hfv).1
  have hany : (clusterMembers
      (contract g (classify opts.exclude_node_list cand mand weak)) g.numNodes
      (find (contract g (classify opts.exclude_node_list cand mand weak)) m)).any
      (fun v => decide (classify opts.exclude_node_list cand mand weak v =
        EligibilityStatus.Mandatory)) = true := by
    rw [List.any_eq_true]
    exact ⟨m, hmemb, by simp [hst]⟩
  have hsize : opts.minimum_segment_size ≤
      (countNonWeak (classify opts.exclude_node_list cand mand weak)
        (clusterMembers
          (contract g (classify opts.exclude_node_list cand mand weak)) g.numNodes
          (find (contract g (classify opts.exclude_node_list cand mand weak)) m)) : Int) := by
    by_contra hns
    rw [assemble_ok_no_drop _ _ _ hasm _ hreps hall hns] at hany
    cases hany
  have hemit : emitted (classify opts.exclude_node_list cand mand weak)
      opts.minimum_segment_size
      (clusterMembers
        (contract g (classify opts.exclude_node_list cand mand weak)) g.numNodes)
      (find (contract g (classify opts.exclude_node_list cand mand weak)) m) = true := by
    simp [emitted, hall, hsize]
  have hcount : segs.countP (fun s => decide (m ∈ s.1)) =
      (segs.map Prod.fst).countP (fun ms => decide (m ∈ ms)) := by
    rw [List.countP_map]
    rfl
  rw [hcount, hmap, List.countP_map]
  have hcong : ((clusterReps
      (contract g (classify opts.exclude_node_list cand mand weak)) g.numNodes).filter
      (emitted (classify opts.exclude_node_list cand mand weak)
        opts.minimum_segment_size
        (clusterMembers
          (contract g (classify opts.exclude_node_list cand mand weak)) g.numNodes))).countP
      ((fun ms => decide (m ∈ ms)) ∘
        (clusterMembers
          (contract g (classify opts.exclude_node_list cand mand weak)) g.numNodes)) =
      ((clusterReps
        (contract g (classify opts.exclude_node_list cand mand weak)) g.numNodes).filter
        (emitted (classify opts.exclude_node_list cand mand weak)
          opts.minimum_segment_size
          (clusterMembers
            (contract g (classify opts.exclude_node_list cand mand weak)) g.numNodes))).countP
        (fun x => x == find (contract g (classify opts.exclude_node_list cand mand weak)) m) := by
    apply List.countP_congr
    intro r hr
    simp only [Function.comp, decide_eq_true_eq, beq_iff_eq]
    constructor
    · intro hmem
      exact ((mem_clusterMembers.mp hmem).2).symm
    · intro hrm
      exact mem_clusterMembers.mpr ⟨hm, hrm.symm⟩
  rw [hcong]
  have hfin : (fun x => x == find (contract g
      (classify opts.exclude_node_list cand mand weak)) m) =
      (· == find (contract g (classify opts.exclude_node_list cand mand weak)) m) := rfl
  rw [hfin]
  have hndf : ((clusterReps
      (contract g (classify opts.exclude_node_list cand mand weak)) g.numNodes).filter
      (emitted (classify opts.exclude_node_list cand mand weak)
        opts.minimum_segment_size
        (clusterMembers
          (contract g (classify opts.exclude_node_list cand mand weak)) g.numNodes))).Nodup :=
    List.Nodup.filter _ (nodup_clusterReps _ _)
  have hmemf : find (contract g (classify opts.exclude_node_list cand mand weak)) m ∈
      ((clusterReps
        (contract g (classify opts.exclude_node_list cand mand weak)) g.numNodes).filter
        (emitted (classify opts.exclude_node_list cand mand weak)
          opts.minimum_segment_size
          (clusterMembers
            (contract g (classify opts.exclude_node_list cand mand weak)) g.numNodes))) :=
    List.mem_filter.mpr ⟨hreps, hemit⟩
  exact List.count_eq_one_of_mem hndf hmemf

/-- C5: an edge is an entering boundary edge of a returned segment iff its
producer is outside and its consumer inside the segment, an exiting boundary
edge iff its producer is inside and its consumer outside, and no edge is both. -/
theorem claim5_boundary {g : Graph} {cand mand weak : Nat → Bool}
    {opts : SegmentOptions} {segs : SegmentNodesVector}
    (h : SegmentGraph g cand opts mand weak = .ok segs) :
    ∀ s ∈ segs, ∀ e : Nat × Nat,
      (e ∈ enteringEdges g s.1 ↔ e ∈ g.edges ∧ e.1 ∉ s.1 ∧ e.2 ∈ s.1) ∧
      (e ∈ exitingEdges g s.1 ↔ e ∈ g.edges ∧ e.1 ∈ s.1 ∧ e.2 ∉ s.1) ∧
      ¬ (e ∈ enteringEdges g s.1 ∧ e ∈ exitingEdges g s.1) := by
  intro s _ e
  have h1 : e ∈ enteringEdges g s.1 ↔ e ∈ g.edges ∧ e.1 ∉ s.1 ∧ e.2 ∈ s.1 := by
    simp [enteringEdges, List.mem_filter, contains_iff_mem]
  have h2 : e ∈ exitingEdges g s.1 ↔ e ∈ g.edges ∧ e.1 ∈ s.1 ∧ e.2 ∉ s.1 := by
    simp [exitingEdges, List.mem_filter, contains_iff_mem]
  refine ⟨h1, h2, ?_⟩
  rintro ⟨hin, hout⟩
  exact (h1.mp hin).2.1 (h2.mp hout).2.1

/-- C6: no node of the exclude list appears in any returned segment; the
exclude list overrides the candidate predicate and the mandatory/weak
predicates are evaluated only for candidates, so every node of a returned
segment is a non-excluded candidate. -/
theorem claim6_exclusion {g : Graph} {cand mand weak : Nat → Bool}
    {opts : SegmentOptions} {segs : SegmentNodesVector}
    (h : SegmentGraph g cand opts mand weak = .ok segs) :
    (∀ x ∈ opts.exclude_node_list, ∀ s ∈ segs, x ∉ s.1) ∧
    (∀ (m2 w2 : Nat → Bool) (x : Nat), x ∈ opts.exclude_node_list →
      classify opts.exclude_node_list cand m2 w2 x = EligibilityStatus.Excluded) ∧
    (∀ (m2 w2 : Nat → Bool) (x : Nat), x ∉ opts.exclude_node_list → cand x = false →
      classify opts.exclude_node_list cand m2 w2 x = EligibilityStatus.Ineligible) ∧
    (∀ s ∈ segs, ∀ v ∈ s.1, v ∉ opts.exclude_node_list ∧ cand v = true) := by
  have hkey : ∀ s ∈ segs, ∀ v ∈ s.1, v ∉ opts.exclude_node_list ∧ cand v = true := by
    intro s hs v hv
    exact mergeable_classify_inv (seg_nodes_mergeable h s hs v hv)
  refine ⟨?_, ?_, ?_, hkey⟩
  · intro x hx s hs hxs
    exact (hkey s hs x hxs).1 hx
  · intro m2 w2 x hx
    rw [classify, if_pos (contains_iff_mem.mpr hx)]
  · intro m2 w2 x hx hc
    have h1 : ¬ (opts.exclude_node_list.contains x = true) :=
      fun hc2 => hx (contains_iff_mem.mp hc2)
    rw [classify, if_neg h1, if_pos (by rw [hc]; rfl)]

/-- C9: the default-constructed options have `minimum_segment_size = 2` and an
empty exclude list, so under default options every returned segment has at
least two non-weak members; a single eligible node never forms a segment. -/
theorem claim9_default_options :
    defaultSegmentOptions.minimum_segment_size = 2 ∧
    defaultSegmentOptions.exclude_node_list = [] ∧
    ∀ (g : Graph) (cand mand weak : Nat → Bool) (segs : SegmentNodesVector),
      SegmentGraph g cand defaultSegmentOptions mand weak = .ok segs →
      ∀ s ∈ segs, 2 ≤ countNonWeak (classify [] cand mand weak) s.1 ∧
        2 ≤ s.1.length := by
  refine ⟨rfl, rfl, ?_⟩
  intro g cand mand weak segs h s hs
  have h1 := seg_minsize h s hs
  have h2 : (2 : Int) ≤ (countNonWeak (classify [] cand mand weak) s.1 : Int) := h1
  have h3 : 2 ≤ countNonWeak (classify [] cand mand weak) s.1 := by exact_mod_cast h2
  refine ⟨h3, le_trans h3 ?_⟩
  exact List.length_filter_le _ _

/-- C4: the partitioner is deterministic — running it twice on identical
inputs (for either overload) yields identical segment lists; in this
embedding both entry points are pure functions of their inputs. -/
theorem claim4_deterministic :
    ∀ (g : Graph) (cand mand weak : Nat → Bool) (opts : SegmentOptions)
      (gdef : GraphDef),
      SegmentGraph g cand opts mand weak = SegmentGraph g cand opts mand weak ∧
      SegmentGraphDef gdef cand opts = SegmentGraphDef gdef cand opts :=
  fun _ _ _ _ _ _ => ⟨rfl, rfl⟩

/-- C8: the GraphDef overload has the same semantics as the Graph overload:
it returns exactly the result of running the Graph overload on the graph
materialized from the serialized definition, with the defaulted always-false
mandatory and weak predicates. -/
theorem claim8_overloads_equivalent :
    ∀ (gdef : GraphDef) (cand : Nat → Bool) (opts : SegmentOptions),
      SegmentGraphDef gdef cand opts =
        SegmentGraph (graphOfGraphDef gdef) cand opts defaultTagFn defaultTagFn :=
  fun _ _ _ => rfl

/-- C1: the quotient graph obtained by contracting every cluster to a single
point is acyclic: the invariant is preserved by every attempted merge (a merge
that would violate it is rejected by the cycle check), it holds of the
contraction fixed point, and contracting the emitted clusters — in particular
every returned segment's node set — also leaves the original graph acyclic. -/
theorem claim1_quotient_acyclic (g : Graph) (cand mand weak : Nat → Bool)
    (opts : SegmentOptions) (hwf : g.wf) (hg : hasCycleB g = false) :
    (∀ (uf : List Nat) (e : Nat × Nat),
      hasCycleB (quotientG g uf) = false →
      hasCycleB (quotientG g (tryMergeEdge g
        (classify opts.exclude_node_list cand mand weak) uf e)) = false) ∧
    hasCycleB (quotientG g
      (contract g (classify opts.exclude_node_list cand mand weak))) = false ∧
    ∀ em : Nat → Bool,
      hasCycleB (mapQuotient g (segMap
        (contract g (classify opts.exclude_node_list cand mand weak)) em)) = false :=
  ⟨fun _ _ hq => QAcyclic_tryMergeEdge hq,
    QAcyclic_contract hwf hg,
    fun _ => segQuot_acyclic hwf (UFgood_contract hwf) hg (QAcyclic_contract hwf hg)⟩

/-- C7: the contraction fixed-point loop terminates: every committed merge
strictly reduces the number of clusters, the initial cluster count is
`numNodes` and never drops below one, so at most `numNodes - 1` merges occur,
and the contraction result is a fixed point of the pass. -/
theorem claim7_termination (g : Graph) (st : Nat → EligibilityStatus) (hwf : g.wf) :
    (∀ (uf : List Nat) (e : Nat × Nat), UFgood g.numNodes uf → e ∈ g.edges →
      tryMergeEdge g st uf e = uf ∨
        numClusters (tryMergeEdge g st uf e) g.numNodes < numClusters uf g.numNodes) ∧
    numClusters (initUF g.numNodes) g.numNodes = g.numNodes ∧
    (∀ uf : List Nat, 0 < g.numNodes → 1 ≤ numClusters uf g.numNodes) ∧
    contractPass g st (contract g st) = contract g st := by
  refine ⟨fun uf e hgood he => tryMergeEdge_numClusters hwf he hgood,
    numClusters_initUF g.numNodes, ?_, contract_fix hwf⟩
  intro uf hn
  exact Finset.card_pos.mpr ⟨find uf 0, mem_clusterImage.mpr ⟨0, hn, rfl⟩⟩

end Segment

namespace Xla

/-- An HLO computation abstraction for the domain-metadata use case:
instruction ids, operand/user edges (operand, user), and for each instruction
the kind of kDomain instruction it is (`none` when it is not a kDomain
instruction), embedding the information `DomainMetadata::Domain` depends on. -/
structure HloGraph where
  numInstr : Nat
  edges : List (Nat × Nat)
  domainKindOf : Nat → Option Nat

/-- Neighbors via operand/user pathways (bidirectional), in edge order. -/
def nbrs (h : HloGraph) (v : Nat) : List Nat :=
  (h.edges.filter (fun e => e.1 == v)).map (fun e => e.2) ++
    (h.edges.filter (fun e => e.2 == v)).map (fun e => e.1)

/-- Is instruction `v` a kDomain instruction of kind `k`? -/
def isDomainOfKind (h : HloGraph) (k v : Nat) : Bool :=
  h.domainKindOf v == some k

/-- One BFS expansion step that refuses to cross kDomain instructions of the
given kind. -/
def expandStep (h : HloGraph) (k : Nat) (cur : List Nat) : List Nat :=
  cur.foldl (fun acc v =>
    acc ++ ((nbrs h v).filter (fun w => !isDomainOfKind h k w && !acc.contains w))) cur

/-- Fuel-bounded closure of the expansion step. -/
def reachFrom (h : HloGraph) (k : Nat) : Nat → List Nat → List Nat
  | 0, cur => cur
  | f+1, cur => reachFrom h k f (expandStep h k cur)

/-- Embedded from `hlo_domain_metadata.h`: a Domain captures the information
about a kDomain bounded instruction set. -/
structure Domain where
  reach_set : List Nat
  instructions : List Nat
  enter_domains : List Nat
  exit_domains : List Nat
  deriving Repr, DecidableEq

/-- Modelled from the spec (§4.5 Domain Reachability Helper; the code that
populates `DomainMetadata::Domain` is not among the sources, only the
structure declaration): compute the set of instructions reachable from the
start instruction via operand/user pathways without crossing a kDomain
instruction of kind `k`; `instructions` is the reach set purged of kDomain
instructions; the enter (resp. exit) domains are the kind-`k` kDomain
instructions whose dataflow enters (resp. exits) the reach set. -/
def CreateDomain (h : HloGraph) (k start : Nat) : Domain :=
  { reach_set := reachFrom h k h.numInstr [start]
    instructions := (reachFrom h k h.numInstr [start]).filter
      (fun v => (h.domainKindOf v).isNone)
    enter_domains := Segment.dedupFirst
      ((h.edges.filter (fun e => isDomainOfKind h k e.1 &&
        (reachFrom h k h.numInstr [start]).contains e.2)).map (fun e => e.1))
    exit_domains := Segment.dedupFirst
      ((h.edges.filter (fun e => (reachFrom h k h.numInstr [start]).contains e.1 &&
        isDomainOfKind h k e.2)).map (fun e => e.2)) }

/-- A tiny HLO computation: instruction 1 is a kDomain instruction of kind 1;
the reach set of kind 0 starting at instruction 0 crosses it. -/
def exHlo : HloGraph :=
  ⟨2, [(0, 1)], fun v => if v = 1 then some 1 else none⟩

/-- C10: for every computed Domain, `instructions` is exactly `reach_set`
purged of kDomain instructions, while `reach_set` itself may contain kDomain
instructions of kinds other than the one delimiting the domain. -/
theorem claim10_domain_instructions :
    (∀ (h : HloGraph) (k s v : Nat),
      v ∈ (CreateDomain h k s).instructions ↔
        v ∈ (CreateDomain h k s).reach_set ∧ h.domainKindOf v = none) ∧
    (1 ∈ (CreateDomain exHlo 0 0).reach_set ∧ exHlo.domainKindOf 1 = some 1 ∧
      isDomainOfKind exHlo 0 1 = false ∧ 1 ∉ (CreateDomain exHlo 0 0).instructions) := by
  constructor
  · intro h k s v
    simp [CreateDomain, List.mem_filter, Option.isNone_iff_eq_none]
  · refine ⟨by decide, rfl, rfl, by decide⟩

end Xla

namespace Segment

/-- Example input: a six-node chain with two separated candidate pairs. -/
def exGraph : Graph := ⟨6, [(0, 1), (1, 2), (2, 3), (3, 4), (4, 5)]⟩

/-- Candidate predicate of the example: nodes 1, 2, 4 and 5. -/
def exCand : Nat → Bool := fun v => v == 1 || v == 2 || v == 4 || v == 5

/-- Mandatory predicate of the example: node 1. -/
def exMand : Nat → Bool := fun v => v == 1

/-- Candidate predicate of the exclusion example: nodes 1, 2 and 3. -/
def exCand2 : Nat → Bool := fun v => v == 1 || v == 2 || v == 3

/-- Options of the exclusion example: node 3 is excluded. -/
def exOptsExcl : SegmentOptions := ⟨2, [3]⟩

theorem claim1_witness :
    hasCycleB (quotientG exGraph
      (contract exGraph (classify defaultSegmentOptions.exclude_node_list exCand
        defaultTagFn defaultTagFn))) = false :=
  (claim1_quotient_acyclic exGraph exCand defaultTagFn defaultTagFn
    defaultSegmentOptions (by unfold Graph.wf; decide) (by decide)).2.1

theorem claim2_witness :
    (1 : Nat) ∉ (([([1, 2], "device_0"), ([4, 5], "device_1")] :
      SegmentNodesVector).getD 1 ([], "")).1 :=
  claim2_segments_disjoint
    (show SegmentGraph exGraph exCand defaultSegmentOptions defaultTagFn defaultTagFn =
      .ok [([1, 2], "device_0"), ([4, 5], "device_1")] from rfl)
    0 1 (by decide) (by decide) (by decide) 1 (by decide)

theorem claim3_witness :
    ([([1, 2], "device_0"), ([4, 5], "device_1")] : SegmentNodesVector).countP
      (fun s => decide ((1 : Nat) ∈ s.1)) = 1 :=
  (claim3_mandatory_minsize (by unfold Graph.wf; decide)
    (show SegmentGraph exGraph exCand defaultSegmentOptions exMand defaultTagFn =
      .ok [([1, 2], "device_0"), ([4, 5], "device_1")] from rfl)).2
    1 (by decide) (by decide)

theorem claim5_witness :
    ((0, 1) ∈ enteringEdges exGraph ([1, 2] : List Nat) ↔
      (0, 1) ∈ exGraph.edges ∧ (0 : Nat) ∉ ([1, 2] : List Nat) ∧
        (1 : Nat) ∈ ([1, 2] : List Nat)) :=
  (claim5_boundary
    (show SegmentGraph exGraph exCand defaultSegmentOptions defaultTagFn defaultTagFn =
      .ok [([1, 2], "device_0"), ([4, 5], "device_1")] from rfl)
    ([1, 2], "device_0") (by decide) (0, 1)).1

theorem claim6_witness : (3 : Nat) ∉ ([1, 2] : List Nat) :=
  (claim6_exclusion
    (show SegmentGraph exGraph exCand2 exOptsExcl defaultTagFn defaultTagFn =
      .ok [([1, 2], "device_0")] from rfl)).1
    3 (by decide) ([1, 2], "device_0") (by decide)

theorem claim7_witness :
    contractPass exGraph (classify [] exCand defaultTagFn defaultTagFn)
      (contract exGraph (classify [] exCand defaultTagFn defaultTagFn)) =
      contract exGraph (classify [] exCand defaultTagFn defaultTagFn) :=
  (claim7_termination exGraph (classify [] exCand defaultTagFn defaultTagFn)
    (by unfold Graph.wf; decide)).2.2.2

theorem claim9_witness :
    2 ≤ countNonWeak (classify [] exCand defaultTagFn defaultTagFn)
      ([1, 2] : List Nat) ∧ 2 ≤ ([1, 2] : List Nat).length :=
  claim9_default_options.2.2 exGraph exCand defaultTagFn defaultTagFn
    [([1, 2], "device_0"), ([4, 5], "device_1")] rfl
    ([1, 2], "device_0") (by decide)

end Segment
